import Mathlib

/-!
Verification of the parsing/formatting core and the table operations of a
small property-listing record manager (source: `code.py`).

Modelling conventions.

* Python floats are modelled as exact rationals (`ℚ`).  Every numeric value
  appearing in the claims is exactly representable in binary64 and the
  arithmetic the code performs on those values is exact, so the rational
  model agrees with the running program on all of them.
* The regex character classes `[\d.]` and `\s` are modelled over ASCII
  (`Char.isDigit`, `Char.isWhitespace`), matching the data the program
  stores and every example in the specification.
* A Python function that can raise an exception is modelled with an
  `Option` result, where `none` means an exception escapes.  On the input
  side, the absence-of-value marker (`pd.isna`, i.e. `NaN`) is modelled by
  an `Option String` argument with `none` as the marker.
* `f"{q:.1f}"` rounds to one decimal digit; on the rational model this is
  round-half-to-even (`rhe`).  The binary double that Python formats is
  almost never an exact half, so the choice of tie-breaking direction is
  irrelevant to every claim proved below.
-/

namespace RealEstate

/-- Membership in the regex character class `[\d.]` used by both
`parse_price` and `parse_space`. -/
def isNumChar (c : Char) : Bool := c.isDigit || c == '.'

/-- Python `str.strip()`: remove leading and trailing whitespace. -/
def pyStrip (l : List Char) : List Char :=
  ((l.dropWhile Char.isWhitespace).reverse.dropWhile Char.isWhitespace).reverse

/-- Python `str.upper()` on the ASCII letters. -/
def pyUpper (l : List Char) : List Char := l.map Char.toUpper

/-- Python `str.lower()` on the ASCII letters. -/
def pyLower (l : List Char) : List Char := l.map Char.toLower

/-- Value of a string of ASCII decimal digits, most significant first. -/
def digitsVal (l : List Char) : ℕ := l.foldl (fun a c => 10 * a + (c.toNat - 48)) 0

/-- Python `float()` applied to a nonempty string drawn from the class
`[\d.]+`: such a string is a valid float literal exactly when it contains
at most one dot and at least one digit (so `"."` and `"1.2.3"` raise
`ValueError`, modelled by `none`); its value is the integer part plus the
fractional digits scaled down. -/
def pyFloat (l : List Char) : Option ℚ :=
  if l.count '.' ≤ 1 ∧ l.any Char.isDigit then
    some ((digitsVal (l.takeWhile (fun c => c != '.')) : ℚ) +
      (digitsVal ((l.dropWhile (fun c => c != '.')).drop 1) : ℚ) /
        (10 : ℚ) ^ ((l.dropWhile (fun c => c != '.')).drop 1).length)
  else none

/-- The multiplier selected by `parse_price` from group 2 of
`re.match(r'([\d.]+)\s*([MK]?)', ...)`: after the numeric run the regex
skips whitespace and captures a single following `M` or `K` if present;
the code then maps `M` to 1,000,000, `K` to 1,000 and anything else to 1. -/
def priceMult (rest : List Char) : ℚ :=
  match rest.dropWhile Char.isWhitespace with
  | [] => 1
  | c :: _ => if c = 'M' then 1000000 else if c = 'K' then 1000 else 1

/-- Body of `parse_price` after `strip().upper()` (code.py lines 22 to 32):
match the leading `[\d.]+` run; no match returns 0, otherwise the mantissa
is passed to `float` (which may raise) and scaled by the unit multiplier. -/
def parsePriceCore (l : List Char) : Option ℚ :=
  if l.takeWhile isNumChar = [] then some 0
  else match pyFloat (l.takeWhile isNumChar) with
    | none => none
    | some m => some (m * priceMult (l.dropWhile isNumChar))

/-- `parse_price` (code.py lines 18 to 32).  `none` input is the `pd.isna`
marker; a `none` result is a `ValueError` escaping `float(...)`. -/
def parse_price (s : Option String) : Option ℚ :=
  match s with
  | none => some 0
  | some t => parsePriceCore (pyUpper (pyStrip t.data))

/-- Body of `parse_space` after `strip().lower()` (code.py lines 38 to 42):
match the leading `[\d.]+` run; no match returns 0, otherwise the value of
`float` on the run (which may raise). -/
def parseSpaceCore (l : List Char) : Option ℚ :=
  if l.takeWhile isNumChar = [] then some 0
  else pyFloat (l.takeWhile isNumChar)

/-- `parse_space` (code.py lines 35 to 42). -/
def parse_space (s : Option String) : Option ℚ :=
  match s with
  | none => some 0
  | some t => parseSpaceCore (pyLower (pyStrip t.data))

/-- The ASCII digit character for `d < 10`. -/
def charOfDigit (d : ℕ) : Char := Char.ofNat (48 + d)

/-- Fuel-driven helper for `natDigits` (structural recursion so that the
kernel can evaluate it). -/
def natDigitsAux : ℕ → ℕ → List Char
  | 0, _ => []
  | fuel + 1, n =>
    if n < 10 then [charOfDigit n]
    else natDigitsAux fuel (n / 10) ++ [charOfDigit (n % 10)]

/-- Decimal digits of `n`, most significant first: the model of Python
`str` on a nonnegative integer. -/
def natDigits (n : ℕ) : List Char := natDigitsAux (n + 1) n

/-- Python `str(k)` for an integer `k`. -/
def intRepr (k : ℤ) : List Char :=
  if k < 0 then '-' :: natDigits (-k).toNat else natDigits k.toNat

/-- Python `int()` on a float: truncation toward zero. -/
def pyInt (q : ℚ) : ℤ := if 0 ≤ q then Rat.floor q else -Rat.floor (-q)

/-- Round half to even, the rounding applied by `f"{q:.1f}"` (see the
module comment on tie-breaking). -/
def rhe (q : ℚ) : ℤ :=
  if q - Rat.floor q < 1/2 then Rat.floor q
  else if 1/2 < q - Rat.floor q then Rat.floor q + 1
  else if Rat.floor q % 2 = 0 then Rat.floor q else Rat.floor q + 1

/-- Python `f"{q:.1f}"` for nonnegative `q`: the rounded tenths are split
into an integer part and a single fractional digit. -/
def fixed1Pos (q : ℚ) : List Char :=
  natDigits ((rhe (10 * q)).toNat / 10) ++ ['.', charOfDigit ((rhe (10 * q)).toNat % 10)]

/-- Python `f"{q:.1f}"`: sign followed by the formatted magnitude. -/
def fixed1 (q : ℚ) : List Char := if q < 0 then '-' :: fixed1Pos (-q) else fixed1Pos q

/-- Body of `format_price_for_csv` (code.py lines 45 to 52). -/
def fmtPriceCore (x : ℚ) : List Char :=
  if 1000000 ≤ x then fixed1 (x / 1000000) ++ ['M']
  else if 1000 ≤ x then fixed1 (x / 1000) ++ ['K']
  else intRepr (pyInt x)

/-- `format_price_for_csv` (code.py lines 45 to 52). -/
def format_price_for_csv (x : ℚ) : String := String.mk (fmtPriceCore x)

/-- One listing row of the in-memory table: the five text fields, the two
canonical text columns `Price` and `Space`, and the two derived numeric
columns `Price_Numeric` and `Space_Numeric`. -/
structure Listing where
  dev : String
  proj : String
  city : String
  dis : String
  ty : String
  price : String
  space : String
  priceNumeric : ℚ
  spaceNumeric : ℚ
deriving DecidableEq

/-- The sidebar filter state: five select boxes (with sentinel `"All"`)
and the two numeric ranges. -/
structure Filters where
  dev : String
  proj : String
  city : String
  dis : String
  ty : String
  priceFrom : ℚ
  priceTo : ℚ
  spaceFrom : ℚ
  spaceTo : ℚ

/-- `filter_df` (code.py lines 181 to 199): one mask per non-`"All"`
selection applied in sequence, then the two inclusive numeric range
masks. -/
def filter_df (f : Filters) (rows : List Listing) : List Listing :=
  let r1 := if f.dev ≠ "All" then rows.filter (fun L => L.dev == f.dev) else rows
  let r2 := if f.proj ≠ "All" then r1.filter (fun L => L.proj == f.proj) else r1
  let r3 := if f.city ≠ "All" then r2.filter (fun L => L.city == f.city) else r2
  let r4 := if f.dis ≠ "All" then r3.filter (fun L => L.dis == f.dis) else r3
  let r5 := if f.ty ≠ "All" then r4.filter (fun L => L.ty == f.ty) else r4
  r5.filter (fun L =>
    decide (f.priceFrom ≤ L.priceNumeric) && decide (L.priceNumeric ≤ f.priceTo) &&
    decide (f.spaceFrom ≤ L.spaceNumeric) && decide (L.spaceNumeric ≤ f.spaceTo))

/-- The add-form state: five text inputs plus the numeric price and space
entered through `st.number_input` (which enforces a lower bound of 0). -/
structure AddForm where
  dev : String
  proj : String
  city : String
  dis : String
  ty : String
  price : ℚ
  space : ℚ

/-- The space text written for a new row: `f"{int(new_space)}ft"`. -/
def spaceTextOf (q : ℚ) : String := String.mk (intRepr (pyInt q) ++ ['f', 't'])

/-- The row appended by the add handler (code.py lines 120 to 130). -/
def newListing (f : AddForm) : Listing :=
  { dev := f.dev, proj := f.proj, city := f.city, dis := f.dis, ty := f.ty,
    price := format_price_for_csv f.price, space := spaceTextOf f.space,
    priceNumeric := f.price, spaceNumeric := f.space }

/-- The guard of the add handler (code.py line 118): Python truthiness of
the five text fields (nonempty) and strict positivity of both numbers. -/
def addFormValid (f : AddForm) : Prop :=
  f.dev ≠ "" ∧ f.proj ≠ "" ∧ f.city ≠ "" ∧ f.dis ≠ "" ∧ f.ty ≠ "" ∧
    0 < f.price ∧ 0 < f.space

instance decAddFormValid (f : AddForm) : Decidable (addFormValid f) := by
  unfold addFormValid
  infer_instance

/-- The add handler (code.py lines 117 to 141): on a valid form the new row
is appended and saved; otherwise the table is untouched and an error
message is shown (returned here as the second component). -/
def addProject (f : AddForm) (df : List Listing) : List Listing × Option String :=
  if addFormValid f then (df ++ [newListing f], none)
  else (df, some "❌ Please fill all required fields!")

/-- One persisted row: exactly the seven canonical CSV columns selected by
`save_data` (code.py line 83). -/
structure SavedRow where
  dev : String
  proj : String
  city : String
  dis : String
  ty : String
  price : String
  space : String
deriving DecidableEq

/-- Projection of a listing onto the seven canonical columns. -/
def toSaved (L : Listing) : SavedRow :=
  { dev := L.dev, proj := L.proj, city := L.city, dis := L.dis, ty := L.ty,
    price := L.price, space := L.space }

/-- `save_data` (code.py lines 80 to 84): the table restricted to the seven
canonical columns is written out; the numeric columns are dropped. -/
def save_data (df : List Listing) : List SavedRow := df.map toSaved

/-- `load_data` (code.py lines 58 to 71): every row read from the file gets
its two numeric columns recomputed by `parse_price` and `parse_space`; if
any cell makes the parser raise, loading fails as a whole (`none`). -/
def load_data : List SavedRow → Option (List Listing)
  | [] => some []
  | r :: rs =>
    match parse_price (some r.price), parse_space (some r.space), load_data rs with
    | some p, some s, some rest =>
        some ({ dev := r.dev, proj := r.proj, city := r.city, dis := r.dis, ty := r.ty,
                price := r.price, space := r.space,
                priceNumeric := p, spaceNumeric := s } :: rest)
    | _, _, _ => none

/-! ### Bridging and helper lemmas -/

theorem ratFloor_eq (q : ℚ) : Rat.floor q = ⌊q⌋ :=
  (Rat.floor_def' q).trans Rat.floor_def.symm

theorem charOfDigit_toNat (d : ℕ) (hd : d < 10) : (charOfDigit d).toNat = 48 + d := by
  interval_cases d <;> decide

theorem charOfDigit_isDigit (d : ℕ) (hd : d < 10) : (charOfDigit d).isDigit = true := by
  interval_cases d <;> decide

theorem charOfDigit_isNumChar (d : ℕ) (hd : d < 10) : isNumChar (charOfDigit d) = true := by
  interval_cases d <;> decide

theorem charOfDigit_ne_dot (d : ℕ) (hd : d < 10) : (charOfDigit d != '.') = true := by
  interval_cases d <;> decide

theorem charOfDigit_beq_dot (d : ℕ) (hd : d < 10) : (charOfDigit d == '.') = false := by
  interval_cases d <;> decide

theorem charOfDigit_not_ws (d : ℕ) (hd : d < 10) : (charOfDigit d).isWhitespace = false := by
  interval_cases d <;> decide

theorem charOfDigit_toUpper (d : ℕ) (hd : d < 10) : (charOfDigit d).toUpper = charOfDigit d := by
  interval_cases d <;> decide

theorem of_isWhitespace (c : Char) (h : c.isWhitespace = true) :
    c = ' ' ∨ c = '\t' ∨ c = '\r' ∨ c = '\n' := by
  have := h
  simp [Char.isWhitespace] at this
  tauto

theorem ws_not_numChar (c : Char) (h : c.isWhitespace = true) : isNumChar c = false := by
  rcases of_isWhitespace c h with rfl | rfl | rfl | rfl <;> decide

theorem numChar_not_ws (c : Char) (h : isNumChar c = true) : c.isWhitespace = false := by
  cases hw : c.isWhitespace with
  | false => rfl
  | true => rw [ws_not_numChar c hw] at h; exact absurd h (by simp)

/-! ### List scanning helpers -/

theorem takeWhile_append_all (p : Char → Bool) (l1 l2 : List Char)
    (h1 : ∀ c ∈ l1, p c = true) (h2 : ∀ c, l2.head? = some c → p c = false) :
    (l1 ++ l2).takeWhile p = l1 := by
  induction l1 with
  | nil =>
    simp only [List.nil_append]
    cases l2 with
    | nil => rfl
    | cons c t => simp [List.takeWhile_cons, h2 c rfl]
  | cons a l1 ih =>
    simp only [List.cons_append, List.takeWhile_cons, h1 a (by simp)]
    simp [ih (fun c hc => h1 c (by simp [hc]))]

theorem dropWhile_append_all (p : Char → Bool) (l1 l2 : List Char)
    (h1 : ∀ c ∈ l1, p c = true) (h2 : ∀ c, l2.head? = some c → p c = false) :
    (l1 ++ l2).dropWhile p = l2 := by
  induction l1 with
  | nil =>
    simp only [List.nil_append]
    cases l2 with
    | nil => rfl
    | cons c t => simp [List.dropWhile_cons, h2 c rfl]
  | cons a l1 ih =>
    simp only [List.cons_append, List.dropWhile_cons, h1 a (by simp)]
    simp [ih (fun c hc => h1 c (by simp [hc]))]

theorem dropWhile_eq_self_of_head (p : Char → Bool) (l : List Char)
    (h : ∀ c, l.head? = some c → p c = false) : l.dropWhile p = l := by
  cases l with
  | nil => rfl
  | cons c t => simp [List.dropWhile_cons, h c rfl]

theorem pyStrip_eq_self (l : List Char) (h : ∀ c ∈ l, c.isWhitespace = false) :
    pyStrip l = l := by
  unfold pyStrip
  have h1 : l.dropWhile Char.isWhitespace = l :=
    dropWhile_eq_self_of_head _ l (fun c hc => h c (by cases l <;> simp_all))
  rw [h1]
  have h2 : l.reverse.dropWhile Char.isWhitespace = l.reverse := by
    apply dropWhile_eq_self_of_head
    intro c hc
    apply h
    have : c ∈ l.reverse := by cases hrev : l.reverse <;> simp_all
    simpa using this
  rw [h2, List.reverse_reverse]

theorem pyUpper_eq_self (l : List Char) (h : ∀ c ∈ l, c.toUpper = c) : pyUpper l = l := by
  unfold pyUpper
  induction l with
  | nil => rfl
  | cons c t ih =>
    simp only [List.map_cons, h c (by simp)]
    rw [ih (fun x hx => h x (by simp [hx]))]

/-! ### Decimal digit strings -/

theorem natDigitsAux_stable (f1 : ℕ) : ∀ f2 n, n < f1 → n < f2 →
    natDigitsAux f1 n = natDigitsAux f2 n := by
  induction f1 with
  | zero => omega
  | succ f1 ih =>
    intro f2 n hn1 hn2
    cases f2 with
    | zero => omega
    | succ f2 =>
      by_cases h10 : n < 10
      · simp [natDigitsAux, h10]
      · have hdiv : n / 10 < n := Nat.div_lt_self (by omega) (by omega)
        simp only [natDigitsAux, if_neg h10]
        rw [ih f2 (n / 10) (by omega) (by omega)]

theorem natDigits_eq (n : ℕ) : natDigits n =
    if n < 10 then [charOfDigit n] else natDigits (n / 10) ++ [charOfDigit (n % 10)] := by
  by_cases h10 : n < 10
  · simp [natDigits, natDigitsAux, h10]
  · have hdiv : n / 10 < n := Nat.div_lt_self (by omega) (by omega)
    rw [if_neg h10]
    have hstep : natDigits n = natDigitsAux n (n / 10) ++ [charOfDigit (n % 10)] := by
      show natDigitsAux (n + 1) n = _
      rw [show natDigitsAux (n + 1) n =
        if n < 10 then [charOfDigit n]
        else natDigitsAux n (n / 10) ++ [charOfDigit (n % 10)] from rfl]
      rw [if_neg h10]
    rw [hstep]
    have hstable : natDigitsAux n (n / 10) = natDigitsAux (n / 10 + 1) (n / 10) :=
      natDigitsAux_stable n (n / 10 + 1) (n / 10) (by omega) (by omega)
    rw [hstable]
    rfl

theorem natDigits_mem (n : ℕ) : ∀ c ∈ natDigits n, ∃ d, d < 10 ∧ c = charOfDigit d := by
  induction n using Nat.strong_induction_on with
  | _ n ih =>
    intro c hc
    rw [natDigits_eq] at hc
    by_cases h10 : n < 10
    · rw [if_pos h10] at hc
      simp at hc
      exact ⟨n, h10, hc⟩
    · rw [if_neg h10] at hc
      have hdiv : n / 10 < n := Nat.div_lt_self (by omega) (by omega)
      rcases List.mem_append.1 hc with h | h
      · exact ih (n / 10) hdiv c h
      · simp at h
        exact ⟨n % 10, Nat.mod_lt _ (by omega), h⟩

theorem natDigits_ne_nil (n : ℕ) : natDigits n ≠ [] := by
  rw [natDigits_eq]
  by_cases h10 : n < 10
  · simp [h10]
  · simp [h10]

theorem digitsVal_foldl (l : List Char) : ∀ a : ℕ,
    l.foldl (fun x c => 10 * x + (c.toNat - 48)) a = a * 10 ^ l.length + digitsVal l := by
  induction l with
  | nil => intro a; simp [digitsVal]
  | cons c t ih =>
    intro a
    simp only [List.foldl_cons, digitsVal, List.length_cons]
    rw [ih (10 * a + (c.toNat - 48)), ih (10 * 0 + (c.toNat - 48))]
    ring

theorem digitsVal_natDigits (n : ℕ) : digitsVal (natDigits n) = n := by
  induction n using Nat.strong_induction_on with
  | _ n ih =>
    rw [natDigits_eq]
    by_cases h10 : n < 10
    · rw [if_pos h10]
      show List.foldl _ 0 _ = n
      simp [charOfDigit_toNat n h10]
    · rw [if_neg h10]
      have hdiv : n / 10 < n := Nat.div_lt_self (by omega) (by omega)
      show List.foldl _ 0 _ = n
      rw [List.foldl_append]
      have hrec : List.foldl (fun x c => 10 * x + (c.toNat - 48)) 0 (natDigits (n / 10)) =
          digitsVal (natDigits (n / 10)) := rfl
      rw [hrec, ih (n / 10) hdiv]
      simp [List.foldl_cons, charOfDigit_toNat (n % 10) (Nat.mod_lt _ (by omega))]
      omega

theorem takeWhile_eq_self_of_all (p : Char → Bool) (l : List Char)
    (h : ∀ c ∈ l, p c = true) : l.takeWhile p = l := by
  have := takeWhile_append_all p l [] h (by simp)
  simpa using this

theorem dropWhile_eq_nil_of_all (p : Char → Bool) (l : List Char)
    (h : ∀ c ∈ l, p c = true) : l.dropWhile p = [] := by
  have := dropWhile_append_all p l [] h (by simp)
  simpa using this

theorem digitsVal_single (d : ℕ) (hd : d < 10) : digitsVal [charOfDigit d] = d := by
  simp [digitsVal, charOfDigit_toNat d hd]

/-! ### Facts about the characters of `natDigits` -/

theorem natDigits_all_numChar (n : ℕ) : ∀ c ∈ natDigits n, isNumChar c = true := by
  intro c hc
  obtain ⟨d, hd, rfl⟩ := natDigits_mem n c hc
  exact charOfDigit_isNumChar d hd

theorem natDigits_not_ws (n : ℕ) : ∀ c ∈ natDigits n, c.isWhitespace = false := by
  intro c hc
  obtain ⟨d, hd, rfl⟩ := natDigits_mem n c hc
  exact charOfDigit_not_ws d hd

theorem natDigits_upper_fixed (n : ℕ) : ∀ c ∈ natDigits n, c.toUpper = c := by
  intro c hc
  obtain ⟨d, hd, rfl⟩ := natDigits_mem n c hc
  exact charOfDigit_toUpper d hd

theorem natDigits_ne_dot (n : ℕ) : ∀ c ∈ natDigits n, (c != '.') = true := by
  intro c hc
  obtain ⟨d, hd, rfl⟩ := natDigits_mem n c hc
  exact charOfDigit_ne_dot d hd

theorem natDigits_dot_not_mem (n : ℕ) : '.' ∉ natDigits n := by
  intro hmem
  obtain ⟨d, hd, hcd⟩ := natDigits_mem n '.' hmem
  have := charOfDigit_beq_dot d hd
  rw [← hcd] at this
  simp at this

theorem natDigits_count_dot (n : ℕ) : (natDigits n).count '.' = 0 :=
  List.count_eq_zero.2 (natDigits_dot_not_mem n)

theorem natDigits_any_digit (n : ℕ) : (natDigits n).any Char.isDigit = true := by
  obtain ⟨c, hc⟩ := List.exists_mem_of_ne_nil _ (natDigits_ne_nil n)
  obtain ⟨d, hd, rfl⟩ := natDigits_mem n c hc
  exact List.any_eq_true.2 ⟨charOfDigit d, hc, charOfDigit_isDigit d hd⟩

/-! ### `pyFloat` on well-shaped inputs -/

theorem pyFloat_natDigits (n : ℕ) : pyFloat (natDigits n) = some (n : ℚ) := by
  unfold pyFloat
  rw [if_pos ⟨by rw [natDigits_count_dot]; omega, natDigits_any_digit n⟩]
  rw [takeWhile_eq_self_of_all _ _ (natDigits_ne_dot n),
    dropWhile_eq_nil_of_all _ _ (natDigits_ne_dot n)]
  rw [digitsVal_natDigits]
  norm_num [digitsVal]

theorem pyFloat_fixed (a b : ℕ) (hb : b < 10) :
    pyFloat (natDigits a ++ '.' :: [charOfDigit b]) = some ((a : ℚ) + (b : ℚ) / 10) := by
  unfold pyFloat
  have hcount : (natDigits a ++ '.' :: [charOfDigit b]).count '.' = 1 := by
    rw [List.count_append, natDigits_count_dot]
    simp [List.count_cons, charOfDigit_beq_dot b hb]
  have hany : (natDigits a ++ '.' :: [charOfDigit b]).any Char.isDigit = true := by
    obtain ⟨c, hc⟩ := List.exists_mem_of_ne_nil _ (natDigits_ne_nil a)
    obtain ⟨d, hd, rfl⟩ := natDigits_mem a c hc
    exact List.any_eq_true.2 ⟨charOfDigit d, by simp [hc], charOfDigit_isDigit d hd⟩
  rw [if_pos ⟨by rw [hcount], hany⟩]
  rw [takeWhile_append_all _ _ _ (natDigits_ne_dot a)
      (by intro c hc; simp at hc; rw [← hc]; decide),
    dropWhile_append_all _ _ _ (natDigits_ne_dot a)
      (by intro c hc; simp at hc; rw [← hc]; decide)]
  rw [digitsVal_natDigits]
  simp only [List.drop_succ_cons, List.drop_zero]
  rw [digitsVal_single b hb]
  norm_num

/-! ### `parsePriceCore` and `parseSpaceCore` on shaped inputs -/

theorem parsePriceCore_digits_unit (a b : ℕ) (hb : b < 10) (u : Char)
    (hu : u = 'M' ∨ u = 'K') :
    parsePriceCore (natDigits a ++ '.' :: charOfDigit b :: [u]) =
      some (((a : ℚ) + (b : ℚ) / 10) * (if u = 'M' then 1000000 else 1000)) := by
  have hl : natDigits a ++ '.' :: charOfDigit b :: [u]
      = (natDigits a ++ '.' :: [charOfDigit b]) ++ [u] := by simp
  have hall : ∀ c ∈ natDigits a ++ '.' :: [charOfDigit b], isNumChar c = true := by
    intro c hc
    rcases List.mem_append.1 hc with h | h
    · exact natDigits_all_numChar a c h
    · simp at h
      rcases h with rfl | rfl
      · decide
      · exact charOfDigit_isNumChar b hb
  have huNum : ∀ c, ([u] : List Char).head? = some c → isNumChar c = false := by
    intro c hc
    simp at hc
    subst hc
    rcases hu with rfl | rfl <;> decide
  have hrun : (natDigits a ++ '.' :: charOfDigit b :: [u]).takeWhile isNumChar
      = natDigits a ++ '.' :: [charOfDigit b] := by
    rw [hl]; exact takeWhile_append_all _ _ _ hall huNum
  have hrest : (natDigits a ++ '.' :: charOfDigit b :: [u]).dropWhile isNumChar = [u] := by
    rw [hl]; exact dropWhile_append_all _ _ _ hall huNum
  unfold parsePriceCore
  rw [hrun, hrest]
  rw [if_neg (by simp [natDigits_ne_nil a])]
  rw [pyFloat_fixed a b hb]
  have hmult : priceMult [u] = if u = 'M' then 1000000 else 1000 := by
    unfold priceMult
    rcases hu with rfl | rfl <;> simp
  rw [hmult]

theorem parsePriceCore_digits (n : ℕ) : parsePriceCore (natDigits n) = some (n : ℚ) := by
  unfold parsePriceCore
  rw [takeWhile_eq_self_of_all _ _ (natDigits_all_numChar n),
    dropWhile_eq_nil_of_all _ _ (natDigits_all_numChar n)]
  rw [if_neg (natDigits_ne_nil n)]
  rw [pyFloat_natDigits]
  unfold priceMult
  simp

theorem parsePriceCore_minus (l : List Char) : parsePriceCore ('-' :: l) = some 0 := by
  have h : ('-' :: l).takeWhile isNumChar = [] := by
    rw [List.takeWhile_cons, if_neg (by decide)]
  unfold parsePriceCore
  rw [h]
  simp

/-! ### From strings to the core parsers -/

theorem parse_price_mk (l : List Char)
    (hws : ∀ c ∈ l, c.isWhitespace = false) (hup : ∀ c ∈ l, c.toUpper = c) :
    parse_price (some (String.mk l)) = parsePriceCore l := by
  show parsePriceCore (pyUpper (pyStrip (String.mk l).data)) = parsePriceCore l
  rw [show (String.mk l).data = l from rfl, pyStrip_eq_self l hws, pyUpper_eq_self l hup]

/-! ### Properties of round-half-even -/

theorem rhe_eq_cases (q : ℚ) : rhe q = ⌊q⌋ ∨ rhe q = ⌊q⌋ + 1 := by
  unfold rhe
  rw [ratFloor_eq]
  split_ifs <;> simp

theorem rhe_floor_le (q : ℚ) : ⌊q⌋ ≤ rhe q := by
  rcases rhe_eq_cases q with h | h <;> omega

theorem rhe_le_floor_add_one (q : ℚ) : rhe q ≤ ⌊q⌋ + 1 := by
  rcases rhe_eq_cases q with h | h <;> omega

theorem rhe_intCast (k : ℤ) : rhe ((k : ℤ) : ℚ) = k := by
  unfold rhe
  rw [ratFloor_eq, Int.floor_intCast, sub_self]
  norm_num

theorem le_rhe_of_le (k : ℤ) (q : ℚ) (h : (k : ℚ) ≤ q) : k ≤ rhe q :=
  le_trans (Int.le_floor.2 h) (rhe_floor_le q)

theorem rhe_le_of_le (k : ℤ) (q : ℚ) (h : q ≤ (k : ℚ)) : rhe q ≤ k := by
  by_cases heq : ⌊q⌋ = k
  · have hq : q = (k : ℚ) := le_antisymm h (by rw [← heq]; exact Int.floor_le q)
    rw [hq, rhe_intCast]
  · have h1 : ⌊q⌋ ≤ k := by
      have := Int.floor_le_floor h
      rwa [Int.floor_intCast] at this
    have := rhe_le_floor_add_one q
    omega

/-! ### Characters of formatted price strings -/

theorem fmtChars (a b : ℕ) (hb : b < 10) (u : Char) (hu : u = 'M' ∨ u = 'K') :
    ∀ c ∈ natDigits a ++ '.' :: charOfDigit b :: [u],
      c.isWhitespace = false ∧ c.toUpper = c := by
  intro c hc
  rcases List.mem_append.1 hc with h | h
  · exact ⟨natDigits_not_ws a c h, natDigits_upper_fixed a c h⟩
  · simp at h
    rcases h with rfl | rfl | rfl
    · exact ⟨by decide, by decide⟩
    · exact ⟨charOfDigit_not_ws b hb, charOfDigit_toUpper b hb⟩
    · rcases hu with rfl | rfl
      · exact ⟨by decide, by decide⟩
      · exact ⟨by decide, by decide⟩

/-! ### Decoding a freshly encoded price, branch by branch -/

theorem parse_fmt_M (x : ℚ) (hx : 1000000 ≤ x) :
    parse_price (some (format_price_for_csv x)) =
      some (((rhe (x / 100000)).toNat : ℚ) * 100000) := by
  have hx0 : (0 : ℚ) ≤ x / 1000000 := div_nonneg (le_trans (by norm_num) hx) (by norm_num)
  set n := (rhe (x / 100000)).toNat with hn
  have hb : n % 10 < 10 := Nat.mod_lt _ (by omega)
  have hlist : fmtPriceCore x = natDigits (n / 10) ++ '.' :: charOfDigit (n % 10) :: ['M'] := by
    unfold fmtPriceCore
    rw [if_pos hx]
    unfold fixed1
    rw [if_neg (not_lt.2 hx0)]
    unfold fixed1Pos
    have h10 : (10 : ℚ) * (x / 1000000) = x / 100000 := by ring
    rw [h10, hn]
    simp
  unfold format_price_for_csv
  rw [hlist]
  rw [parse_price_mk _ (fun c hc => (fmtChars (n / 10) (n % 10) hb 'M' (Or.inl rfl) c hc).1)
    (fun c hc => (fmtChars (n / 10) (n % 10) hb 'M' (Or.inl rfl) c hc).2)]
  rw [parsePriceCore_digits_unit (n / 10) (n % 10) hb 'M' (Or.inl rfl)]
  rw [if_pos rfl]
  congr 1
  have hdm : (10 * (n / 10) + n % 10 : ℕ) = n := Nat.div_add_mod n 10
  have hq : ((10 * (n / 10) + n % 10 : ℕ) : ℚ) = (n : ℚ) := by
    exact_mod_cast congrArg (fun m : ℕ => (m : ℚ)) hdm
  push_cast at hq
  linear_combination 100000 * hq

theorem parse_fmt_K (x : ℚ) (h1 : ¬ 1000000 ≤ x) (h2 : 1000 ≤ x) :
    parse_price (some (format_price_for_csv x)) =
      some (((rhe (x / 100)).toNat : ℚ) * 100) := by
  have hx0 : (0 : ℚ) ≤ x / 1000 := div_nonneg (le_trans (by norm_num) h2) (by norm_num)
  set n := (rhe (x / 100)).toNat with hn
  have hb : n % 10 < 10 := Nat.mod_lt _ (by omega)
  have hlist : fmtPriceCore x = natDigits (n / 10) ++ '.' :: charOfDigit (n % 10) :: ['K'] := by
    unfold fmtPriceCore
    rw [if_neg h1, if_pos h2]
    unfold fixed1
    rw [if_neg (not_lt.2 hx0)]
    unfold fixed1Pos
    have h10 : (10 : ℚ) * (x / 1000) = x / 100 := by ring
    rw [h10, hn]
    simp
  unfold format_price_for_csv
  rw [hlist]
  rw [parse_price_mk _ (fun c hc => (fmtChars (n / 10) (n % 10) hb 'K' (Or.inr rfl) c hc).1)
    (fun c hc => (fmtChars (n / 10) (n % 10) hb 'K' (Or.inr rfl) c hc).2)]
  rw [parsePriceCore_digits_unit (n / 10) (n % 10) hb 'K' (Or.inr rfl)]
  rw [if_neg (by decide)]
  congr 1
  have hdm : (10 * (n / 10) + n % 10 : ℕ) = n := Nat.div_add_mod n 10
  have hq : ((10 * (n / 10) + n % 10 : ℕ) : ℚ) = (n : ℚ) := by
    exact_mod_cast congrArg (fun m : ℕ => (m : ℚ)) hdm
  push_cast at hq
  linear_combination 100 * hq

theorem parse_fmt_small (x : ℚ) (h1 : ¬ 1000000 ≤ x) (h2 : ¬ 1000 ≤ x) :
    parse_price (some (format_price_for_csv x)) =
      some (if 0 ≤ x then (((Rat.floor x).toNat : ℕ) : ℚ) else 0) := by
  have hlist : fmtPriceCore x = intRepr (pyInt x) := by
    unfold fmtPriceCore
    rw [if_neg h1, if_neg h2]
  by_cases hx : 0 ≤ x
  · have hpy : pyInt x = Rat.floor x := by unfold pyInt; rw [if_pos hx]
    have hfl : 0 ≤ Rat.floor x := by rw [ratFloor_eq]; exact Int.floor_nonneg.2 hx
    have hint : intRepr (pyInt x) = natDigits (Rat.floor x).toNat := by
      unfold intRepr
      rw [hpy, if_neg (by omega)]
    unfold format_price_for_csv
    rw [hlist, hint, parse_price_mk _ (natDigits_not_ws _) (natDigits_upper_fixed _),
      parsePriceCore_digits, if_pos hx]
  · push_neg at hx
    have hpy : pyInt x = -Rat.floor (-x) := by unfold pyInt; rw [if_neg (not_le.2 hx)]
    have hflneg : 0 ≤ Rat.floor (-x) := by
      rw [ratFloor_eq]
      exact Int.floor_nonneg.2 (by linarith)
    by_cases hz : Rat.floor (-x) = 0
    · have hzero : pyInt x = 0 := by rw [hpy, hz]; simp
      have hint : intRepr (pyInt x) = natDigits 0 := by
        unfold intRepr
        rw [hzero]
        norm_num
      unfold format_price_for_csv
      rw [hlist, hint, parse_price_mk _ (natDigits_not_ws _) (natDigits_upper_fixed _),
        parsePriceCore_digits, if_neg (not_le.2 hx)]
      norm_num
    · have hneg : pyInt x < 0 := by rw [hpy]; omega
      have hint : intRepr (pyInt x) = '-' :: natDigits (-(pyInt x)).toNat := by
        unfold intRepr
        rw [if_pos hneg]
      unfold format_price_for_csv
      rw [hlist, hint]
      rw [parse_price_mk _ ?hws ?hup]
      case hws =>
        intro c hc
        simp at hc
        rcases hc with rfl | hc
        · decide
        · exact natDigits_not_ws _ c hc
      case hup =>
        intro c hc
        simp at hc
        rcases hc with rfl | hc
        · decide
        · exact natDigits_upper_fixed _ c hc
      rw [parsePriceCore_minus, if_neg (not_le.2 hx)]

/-! ### Values in the image of encode-then-decode are fixed points -/

theorem parse_fmt_fix_M (m : ℕ) (hm : 10 ≤ m) :
    parse_price (some (format_price_for_csv ((m : ℚ) * 100000))) = some ((m : ℚ) * 100000) := by
  have hmq : (10 : ℚ) ≤ (m : ℚ) := by exact_mod_cast hm
  have hge : (1000000 : ℚ) ≤ (m : ℚ) * 100000 := by nlinarith
  rw [parse_fmt_M _ hge]
  have harg : ((m : ℚ) * 100000) / 100000 = ((m : ℤ) : ℚ) := by push_cast; field_simp
  rw [harg, rhe_intCast]
  have htn : ((m : ℤ)).toNat = m := by omega
  rw [htn]

theorem parse_fmt_fix_K (m : ℕ) (hm1 : 10 ≤ m) (hm2 : m ≤ 9999) :
    parse_price (some (format_price_for_csv ((m : ℚ) * 100))) = some ((m : ℚ) * 100) := by
  have hmq1 : (10 : ℚ) ≤ (m : ℚ) := by exact_mod_cast hm1
  have hmq2 : (m : ℚ) ≤ 9999 := by exact_mod_cast hm2
  have h1 : ¬ (1000000 : ℚ) ≤ (m : ℚ) * 100 := by nlinarith
  have h2 : (1000 : ℚ) ≤ (m : ℚ) * 100 := by nlinarith
  rw [parse_fmt_K _ h1 h2]
  have harg : ((m : ℚ) * 100) / 100 = ((m : ℤ) : ℚ) := by push_cast; field_simp
  rw [harg, rhe_intCast]
  have htn : ((m : ℤ)).toNat = m := by omega
  rw [htn]

theorem parse_fmt_fix_small (k : ℕ) (hk : k ≤ 999) :
    parse_price (some (format_price_for_csv (k : ℚ))) = some ((k : ℚ)) := by
  have hkq : ((k : ℕ) : ℚ) ≤ 999 := by exact_mod_cast hk
  have h1 : ¬ (1000000 : ℚ) ≤ (k : ℚ) := by linarith
  have h2 : ¬ (1000 : ℚ) ≤ (k : ℚ) := by linarith
  rw [parse_fmt_small _ h1 h2, if_pos (by positivity)]
  have hfl : Rat.floor ((k : ℕ) : ℚ) = (k : ℤ) := by
    rw [ratFloor_eq]
    exact_mod_cast Int.floor_natCast k
  rw [hfl]
  have h3 : ((k : ℤ)).toNat = k := by omega
  rw [h3]

/-- C4 (amended): for every number x, decode∘encode of the price codec is
idempotent on its second application: decode(encode(x)) succeeds with a
value y and decode(encode(y)) = y, so
decode(encode(decode(encode(x)))) = decode(encode(x)).  Moreover
decode(encode(x)) equals x rounded half-to-even to one decimal digit of
mantissa at the unit scale chosen by encode for the M and K branches,
while for the no-unit branch it equals the truncation of x to an integer
when 0 ≤ x, and 0 when x is negative (a negative encoding re-decodes to
the zero fallback). -/
theorem price_roundtrip_idempotent (x : ℚ) :
    ∃ y, parse_price (some (format_price_for_csv x)) = some y ∧
      parse_price (some (format_price_for_csv y)) = some y ∧
      (1000000 ≤ x → y = ((rhe (x / 100000)).toNat : ℚ) * 100000) ∧
      (¬ 1000000 ≤ x → 1000 ≤ x → y = ((rhe (x / 100)).toNat : ℚ) * 100) ∧
      (¬ 1000000 ≤ x → ¬ 1000 ≤ x → 0 ≤ x → y = ((Rat.floor x).toNat : ℚ)) ∧
      (¬ 1000000 ≤ x → ¬ 1000 ≤ x → x < 0 → y = 0) := by
  by_cases hM : 1000000 ≤ x
  · set m := (rhe (x / 100000)).toNat with hm
    have h10 : (10 : ℤ) ≤ rhe (x / 100000) := by
      apply le_rhe_of_le
      rw [show ((10 : ℤ) : ℚ) = 10 from by norm_num, le_div_iff₀ (by norm_num)]
      linarith
    have hm10 : 10 ≤ m := by omega
    exact ⟨(m : ℚ) * 100000, parse_fmt_M x hM, parse_fmt_fix_M m hm10, fun _ => rfl,
      fun h _ => absurd hM h, fun h _ _ => absurd hM h, fun h _ _ => absurd hM h⟩
  · by_cases hK : 1000 ≤ x
    · set m := (rhe (x / 100)).toNat with hm
      have h10 : (10 : ℤ) ≤ rhe (x / 100) := by
        apply le_rhe_of_le
        rw [show ((10 : ℤ) : ℚ) = 10 from by norm_num, le_div_iff₀ (by norm_num)]
        linarith
      have hup : rhe (x / 100) ≤ 10000 := by
        apply rhe_le_of_le
        rw [show ((10000 : ℤ) : ℚ) = 10000 from by norm_num, div_le_iff₀ (by norm_num)]
        push_neg at hM
        linarith
      have hm10 : 10 ≤ m := by omega
      by_cases hsmall : m ≤ 9999
      · exact ⟨(m : ℚ) * 100, parse_fmt_K x hM hK, parse_fmt_fix_K m hm10 hsmall,
          fun h => absurd h hM, fun _ _ => rfl, fun _ h => absurd hK h, fun _ h => absurd hK h⟩
      · have hmeq : m = 10000 := by omega
        have hxy : ((m : ℚ)) * 100 = ((10 : ℕ) : ℚ) * 100000 := by rw [hmeq]; norm_num
        refine ⟨(m : ℚ) * 100, parse_fmt_K x hM hK, ?_, fun h => absurd h hM,
          fun _ _ => rfl, fun _ h => absurd hK h, fun _ h => absurd hK h⟩
        rw [hxy]
        exact parse_fmt_fix_M 10 (le_refl 10)
    · by_cases hx : 0 ≤ x
      · set k := (Rat.floor x).toNat with hk
        have hfl : ⌊x⌋ < 1000 := by
          rw [Int.floor_lt]
          push_neg at hK
          exact lt_of_lt_of_le hK (by norm_num)
        have hk999 : k ≤ 999 := by
          rw [hk, ratFloor_eq]
          omega
        refine ⟨(k : ℚ), ?_, parse_fmt_fix_small k hk999, fun h => absurd h hM,
          fun _ h => absurd h hK, fun _ _ _ => rfl, fun _ _ h => absurd h (not_lt.2 hx)⟩
        rw [parse_fmt_small x hM hK, if_pos hx]
      · push_neg at hx
        refine ⟨0, ?_, ?_, fun h => absurd h hM, fun _ h => absurd h hK,
          fun _ _ h => absurd h (not_le.2 hx), fun _ _ _ => rfl⟩
        · rw [parse_fmt_small x hM hK, if_neg (not_le.2 hx)]
        · have h0 := parse_fmt_fix_small 0 (by omega)
          simpa using h0

/-! ### Character classes through `Char.toNat` -/

theorem char_toNat_ofNat (n : ℕ) (h : n.isValidChar) : (Char.ofNat n).toNat = n := by
  simp [Char.ofNat, dif_pos h, Char.ofNatAux, Char.toNat, UInt32.toNat, BitVec.toNat_ofNatLt]

theorem isNumChar_iff_toNat (c : Char) :
    isNumChar c = true ↔ ((48 ≤ c.toNat ∧ c.toNat ≤ 57) ∨ c.toNat = 46) := by
  constructor
  · intro h
    simp [isNumChar] at h
    rcases h with h | h
    · unfold Char.isDigit at h
      simp at h
      exact Or.inl ⟨h.1, h.2⟩
    · subst h
      exact Or.inr rfl
  · intro h
    rcases h with ⟨h1, h2⟩ | h
    · have hd : c.isDigit = true := by
        unfold Char.isDigit
        simp
        exact ⟨h1, h2⟩
      simp [isNumChar, hd]
    · have hc : c = '.' := Char.eq_of_val_eq (UInt32.ext h)
      subst hc
      decide

theorem isNumChar_false_iff_toNat (c : Char) :
    isNumChar c = false ↔ ¬ ((48 ≤ c.toNat ∧ c.toNat ≤ 57) ∨ c.toNat = 46) := by
  rw [← isNumChar_iff_toNat]
  cases isNumChar c <;> simp

theorem isWhitespace_iff_toNat (c : Char) :
    c.isWhitespace = true ↔ (c.toNat = 32 ∨ c.toNat = 9 ∨ c.toNat = 13 ∨ c.toNat = 10) := by
  constructor
  · intro h
    rcases of_isWhitespace c h with rfl | rfl | rfl | rfl
    · exact Or.inl rfl
    · exact Or.inr (Or.inl rfl)
    · exact Or.inr (Or.inr (Or.inl rfl))
    · exact Or.inr (Or.inr (Or.inr rfl))
  · intro h
    have hs : ∀ n : ℕ, n.isValidChar → c.toNat = n → c = Char.ofNat n := by
      intro n hv hn
      apply Char.eq_of_val_eq
      apply UInt32.ext
      rw [show (Char.ofNat n).val.toNat = (Char.ofNat n).toNat from rfl,
        char_toNat_ofNat n hv]
      exact hn
    rcases h with h | h | h | h <;>
      rw [hs _ (Or.inl (by omega)) h] <;> decide

theorem isAlpha_toNat (c : Char) (h : c.isAlpha = true) :
    (65 ≤ c.toNat ∧ c.toNat ≤ 90) ∨ (97 ≤ c.toNat ∧ c.toNat ≤ 122) := by
  simp [Char.isAlpha, Char.isUpper, Char.isLower] at h
  rcases h with ⟨h1, h2⟩ | ⟨h1, h2⟩
  · exact Or.inl ⟨h1, h2⟩
  · exact Or.inr ⟨h1, h2⟩

theorem isAlpha_not_numChar (c : Char) (h : c.isAlpha = true) : isNumChar c = false := by
  rw [isNumChar_false_iff_toNat]
  rcases isAlpha_toNat c h with ⟨h1, h2⟩ | ⟨h1, h2⟩ <;> omega

theorem isAlpha_not_ws (c : Char) (h : c.isAlpha = true) : c.isWhitespace = false := by
  cases hw : c.isWhitespace with
  | false => rfl
  | true =>
    have := (isWhitespace_iff_toNat c).1 hw
    rcases isAlpha_toNat c h with ⟨h1, h2⟩ | ⟨h1, h2⟩ <;> omega

theorem toUpper_cases (c : Char) :
    c.toUpper = c ∨ (97 ≤ c.toNat ∧ c.toNat ≤ 122 ∧ c.toUpper.toNat = c.toNat - 32) := by
  unfold Char.toUpper
  by_cases h : 97 ≤ c.toNat ∧ c.toNat ≤ 122
  · rw [if_pos h]
    exact Or.inr ⟨h.1, h.2, char_toNat_ofNat (c.toNat - 32) (Or.inl (by omega))⟩
  · rw [if_neg h]
    exact Or.inl rfl

theorem toLower_cases (c : Char) :
    c.toLower = c ∨ (65 ≤ c.toNat ∧ c.toNat ≤ 90 ∧ c.toLower.toNat = c.toNat + 32) := by
  unfold Char.toLower
  by_cases h : 65 ≤ c.toNat ∧ c.toNat ≤ 90
  · rw [if_pos h]
    exact Or.inr ⟨h.1, h.2, char_toNat_ofNat (c.toNat + 32) (Or.inl (by omega))⟩
  · rw [if_neg h]
    exact Or.inl rfl

theorem isNumChar_toUpper (c : Char) : isNumChar c.toUpper = isNumChar c := by
  rcases toUpper_cases c with h | ⟨h1, h2, h3⟩
  · rw [h]
  · have hu : isNumChar c.toUpper = false := by
      rw [isNumChar_false_iff_toNat]
      omega
    have hc : isNumChar c = false := by
      rw [isNumChar_false_iff_toNat]
      omega
    rw [hu, hc]

theorem isNumChar_toLower (c : Char) : isNumChar c.toLower = isNumChar c := by
  rcases toLower_cases c with h | ⟨h1, h2, h3⟩
  · rw [h]
  · have hu : isNumChar c.toLower = false := by
      rw [isNumChar_false_iff_toNat]
      omega
    have hc : isNumChar c = false := by
      rw [isNumChar_false_iff_toNat]
      omega
    rw [hu, hc]

/-! ### Structure of the parsers on decomposed inputs -/

theorem parse_price_some (s : String) :
    parse_price (some s) = parsePriceCore (pyUpper (pyStrip s.data)) := rfl

theorem parse_space_some (s : String) :
    parse_space (some s) = parseSpaceCore (pyLower (pyStrip s.data)) := rfl

theorem parsePriceCore_run (num rest : List Char)
    (hnum : ∀ c ∈ num, isNumChar c = true) (hne : num ≠ [])
    (hrest : ∀ c, rest.head? = some c → isNumChar c = false) :
    parsePriceCore (num ++ rest) =
      match pyFloat num with
      | none => none
      | some m => some (m * priceMult rest) := by
  unfold parsePriceCore
  rw [takeWhile_append_all _ _ _ hnum hrest, dropWhile_append_all _ _ _ hnum hrest, if_neg hne]

theorem parseSpaceCore_run (num rest : List Char)
    (hnum : ∀ c ∈ num, isNumChar c = true) (hne : num ≠ [])
    (hrest : ∀ c, rest.head? = some c → isNumChar c = false) :
    parseSpaceCore (num ++ rest) = pyFloat num := by
  unfold parseSpaceCore
  rw [takeWhile_append_all _ _ _ hnum hrest, if_neg hne]

theorem priceMult_nil : priceMult [] = 1 := rfl

theorem priceMult_alpha (c : Char) (t : List Char) (h : c.isAlpha = true) :
    priceMult (c :: t) = if c = 'M' then 1000000 else if c = 'K' then 1000 else 1 := by
  unfold priceMult
  rw [List.dropWhile_cons, if_neg (by rw [isAlpha_not_ws c h]; simp)]

theorem priceMult_ws_unit (ws : List Char) (u : Char) (tail : List Char)
    (hws : ∀ c ∈ ws, c.isWhitespace = true) (hu : u = 'M' ∨ u = 'K') :
    priceMult (ws ++ u :: tail) = if u = 'M' then 1000000 else 1000 := by
  unfold priceMult
  rw [dropWhile_append_all Char.isWhitespace ws (u :: tail) hws
    (by intro c hc; simp at hc; subst hc; rcases hu with rfl | rfl <;> decide)]
  rcases hu with rfl | rfl <;> simp

theorem takeWhile_nil_iff (p : Char → Bool) (l : List Char) :
    l.takeWhile p = [] ↔ ∀ c, l.head? = some c → p c = false := by
  cases l with
  | nil => simp
  | cons a t =>
    rw [List.takeWhile_cons]
    constructor
    · intro h c hc
      simp at hc
      by_contra hp
      have hp2 : p a = true := by rw [hc]; simpa using hp
      rw [if_pos hp2] at h
      simp at h
    · intro h
      rw [if_neg (by rw [h a rfl]; simp)]

theorem parsePriceCore_isSome_iff (l : List Char) :
    (parsePriceCore l).isSome = true ↔
      (l.takeWhile isNumChar = [] ∨
        ((l.takeWhile isNumChar).count '.' ≤ 1 ∧
          (l.takeWhile isNumChar).any Char.isDigit = true)) := by
  unfold parsePriceCore
  by_cases h : l.takeWhile isNumChar = []
  · simp [h]
  · rw [if_neg h]
    unfold pyFloat
    by_cases hwf : (l.takeWhile isNumChar).count '.' ≤ 1 ∧
        (l.takeWhile isNumChar).any Char.isDigit = true
    · rw [if_pos hwf]
      simp [h, hwf]
    · rw [if_neg hwf]
      constructor
      · intro hfalse
        exact absurd hfalse (by simp)
      · intro hor
        rcases hor with h2 | h2
        · exact absurd h2 h
        · exact absurd h2 hwf

theorem parseSpaceCore_isSome_iff (l : List Char) :
    (parseSpaceCore l).isSome = true ↔
      (l.takeWhile isNumChar = [] ∨
        ((l.takeWhile isNumChar).count '.' ≤ 1 ∧
          (l.takeWhile isNumChar).any Char.isDigit = true)) := by
  unfold parseSpaceCore
  by_cases h : l.takeWhile isNumChar = []
  · simp [h]
  · rw [if_neg h]
    unfold pyFloat
    by_cases hwf : (l.takeWhile isNumChar).count '.' ≤ 1 ∧
        (l.takeWhile isNumChar).any Char.isDigit = true
    · rw [if_pos hwf]
      simp [h, hwf]
    · rw [if_neg hwf]
      constructor
      · intro hfalse
        exact absurd hfalse (by simp)
      · intro hor
        rcases hor with h2 | h2
        · exact absurd h2 h
        · exact absurd h2 hwf

theorem parsePriceCore_nil_run (l : List Char) (h : l.takeWhile isNumChar = []) :
    parsePriceCore l = some 0 := by
  unfold parsePriceCore
  rw [if_pos h]

theorem parseSpaceCore_nil_run (l : List Char) (h : l.takeWhile isNumChar = []) :
    parseSpaceCore l = some 0 := by
  unfold parseSpaceCore
  rw [if_pos h]

/-! ### Table operations -/

theorem load_data_inverts (rows : List SavedRow) : ∀ df, load_data rows = some df →
    save_data df = rows ∧ ∀ L ∈ df, parse_price (some L.price) = some L.priceNumeric ∧
      parse_space (some L.space) = some L.spaceNumeric := by
  induction rows with
  | nil =>
    intro df h
    simp [load_data] at h
    subst h
    simp [save_data]
  | cons r rs ih =>
    intro df h
    unfold load_data at h
    cases hp : parse_price (some r.price) with
    | none => rw [hp] at h; simp at h
    | some p =>
      cases hs : parse_space (some r.space) with
      | none => rw [hp, hs] at h; simp at h
      | some sp =>
        cases hl : load_data rs with
        | none => rw [hp, hs, hl] at h; simp at h
        | some rest =>
          rw [hp, hs, hl] at h
          simp at h
          obtain ⟨hsave, hall⟩ := ih rest hl
          constructor
          · rw [← h]
            show toSaved _ :: save_data rest = r :: rs
            rw [hsave]
            rfl
          · intro L hL
            rw [← h] at hL
            rcases List.mem_cons.1 hL with rfl | hmem
            · exact ⟨hp, hs⟩
            · exact hall L hmem

theorem mem_if_filter (L : Listing) (cond : Prop) [Decidable cond] (p : Listing → Bool)
    (rs : List Listing) :
    L ∈ (if cond then rs.filter p else rs) ↔ L ∈ rs ∧ (¬ cond ∨ p L = true) := by
  split_ifs with h
  · simp [List.mem_filter, h]
  · simp [h]

/-! ### Concrete evaluations used by the witnesses -/

theorem head_singleton_pred (p : Char → Bool) (u : Char) (t : List Char) (h : p u = false) :
    ∀ c, (u :: t).head? = some c → p c = false := by
  intro c hc
  simp at hc
  rw [← hc]
  exact h

theorem parse_price_ex1 : parse_price (some "2.5M") = some 2500000 := by
  rw [parse_price_some]
  rw [show pyUpper (pyStrip ("2.5M".data)) = natDigits 2 ++ '.' :: charOfDigit 5 :: ['M']
    from by decide]
  rw [parsePriceCore_digits_unit 2 5 (by norm_num) 'M' (Or.inl rfl)]
  norm_num

theorem parse_price_ex2 : parse_price (some "500K") = some 500000 := by
  rw [parse_price_some]
  rw [show pyUpper (pyStrip ("500K".data)) = natDigits 500 ++ ['K'] from by decide]
  rw [parsePriceCore_run (natDigits 500) ['K'] (natDigits_all_numChar 500)
    (natDigits_ne_nil 500) (head_singleton_pred isNumChar 'K' [] (by decide))]
  rw [pyFloat_natDigits]
  show some ((500 : ℕ) * priceMult ['K']) = some 500000
  rw [show priceMult ['K'] = (1000 : ℚ) from rfl]
  norm_num

theorem parse_price_ex3 : parse_price (some "750") = some 750 := by
  rw [parse_price_some]
  rw [show pyUpper (pyStrip ("750".data)) = natDigits 750 from by decide]
  rw [parsePriceCore_digits]
  norm_num

theorem parse_price_ex4 : parse_price (some "1.75M") = some 1750000 := by
  rw [parse_price_some]
  rw [show pyUpper (pyStrip ("1.75M".data)) = ['1', '.', '7', '5'] ++ ['M'] from by decide]
  rw [parsePriceCore_run ['1', '.', '7', '5'] ['M'] (by decide) (by decide)
    (head_singleton_pred isNumChar 'M' [] (by decide))]
  rw [show pyFloat ['1', '.', '7', '5']
    = some (((1 : ℕ) : ℚ) + ((75 : ℕ) : ℚ) / (10 : ℚ) ^ (2 : ℕ)) from rfl]
  show some ((((1 : ℕ) : ℚ) + ((75 : ℕ) : ℚ) / (10 : ℚ) ^ (2 : ℕ)) * priceMult ['M'])
    = some 1750000
  rw [show priceMult ['M'] = (1000000 : ℚ) from rfl]
  norm_num

theorem parse_space_ex1 : parse_space (some "1200ft") = some 1200 := by
  rw [parse_space_some]
  rw [show pyLower (pyStrip ("1200ft".data)) = natDigits 1200 ++ ['f', 't'] from by decide]
  rw [parseSpaceCore_run (natDigits 1200) ['f', 't'] (natDigits_all_numChar 1200)
    (natDigits_ne_nil 1200) (head_singleton_pred isNumChar 'f' ['t'] (by decide))]
  rw [pyFloat_natDigits]
  norm_num

theorem parse_space_ex2 : parse_space (some "850.5 sqft") = some (1701 / 2) := by
  rw [parse_space_some]
  rw [show pyLower (pyStrip ("850.5 sqft".data))
    = (natDigits 850 ++ '.' :: [charOfDigit 5]) ++ (' ' :: ['s', 'q', 'f', 't']) from by decide]
  rw [parseSpaceCore_run _ _ ?hnum ?hne (head_singleton_pred isNumChar ' ' _ (by decide))]
  case hnum =>
    intro c hc
    rcases List.mem_append.1 hc with h | h
    · exact natDigits_all_numChar 850 c h
    · simp at h
      rcases h with rfl | rfl
      · decide
      · decide
  case hne => simp [natDigits_ne_nil 850]
  rw [pyFloat_fixed 850 5 (by norm_num)]
  norm_num

theorem format_ex1 : format_price_for_csv 2500000 = "2.5M" := by
  unfold format_price_for_csv fmtPriceCore
  rw [if_pos (by norm_num : (1000000 : ℚ) ≤ 2500000)]
  unfold fixed1
  rw [if_neg (by norm_num : ¬ (2500000 : ℚ) / 1000000 < 0)]
  unfold fixed1Pos
  rw [show (10 : ℚ) * (2500000 / 1000000) = ((25 : ℤ) : ℚ) from by norm_num, rhe_intCast]
  decide

theorem format_ex2 : format_price_for_csv 500000 = "500.0K" := by
  unfold format_price_for_csv fmtPriceCore
  rw [if_neg (by norm_num : ¬ (1000000 : ℚ) ≤ 500000),
    if_pos (by norm_num : (1000 : ℚ) ≤ 500000)]
  unfold fixed1
  rw [if_neg (by norm_num : ¬ (500000 : ℚ) / 1000 < 0)]
  unfold fixed1Pos
  rw [show (10 : ℚ) * (500000 / 1000) = ((5000 : ℤ) : ℚ) from by norm_num, rhe_intCast]
  decide

theorem format_ex3 : format_price_for_csv 0 = "0" := by
  unfold format_price_for_csv fmtPriceCore
  rw [if_neg (by norm_num : ¬ (1000000 : ℚ) ≤ 0), if_neg (by norm_num : ¬ (1000 : ℚ) ≤ 0)]
  have h0 : pyInt 0 = 0 := by
    unfold pyInt
    rw [if_pos le_rfl, ratFloor_eq]
    exact Int.floor_zero
  rw [h0]
  decide

/-! ### The claims -/

/-- C1 counterexample: decode is not total.  On the input `"."` (and on
`"1.2.3"`) the leading run of digit and dot characters matches the regex
but is not a well-formed number, so `float` raises `ValueError` and both
codecs propagate the exception (modelled by `none`) instead of returning
a number. -/
theorem parse_dot_exception :
    parse_price (some ".") = none ∧ parse_space (some ".") = none ∧
      parse_price (some "1.2.3") = none := by
  refine ⟨?_, ?_, ?_⟩ <;> decide

/-- C1 (amended): decode of the absence marker returns 0, and decode of a
string returns a number exactly when the leading digit/dot run of the
stripped, case-mapped text is either empty or well formed, meaning it has
at most one dot and at least one digit; on a nonempty malformed run,
`float` raises and the exception escapes. -/
theorem parse_totality_characterization (s : String) :
    parse_price none = some 0 ∧ parse_space none = some 0 ∧
    ((parse_price (some s)).isSome = true ↔
      ((pyUpper (pyStrip s.data)).takeWhile isNumChar = [] ∨
        (((pyUpper (pyStrip s.data)).takeWhile isNumChar).count '.' ≤ 1 ∧
          ((pyUpper (pyStrip s.data)).takeWhile isNumChar).any Char.isDigit = true))) ∧
    ((parse_space (some s)).isSome = true ↔
      ((pyLower (pyStrip s.data)).takeWhile isNumChar = [] ∨
        (((pyLower (pyStrip s.data)).takeWhile isNumChar).count '.' ≤ 1 ∧
          ((pyLower (pyStrip s.data)).takeWhile isNumChar).any Char.isDigit = true))) :=
  ⟨rfl, rfl, by rw [parse_price_some]; exact parsePriceCore_isSome_iff _,
    by rw [parse_space_some]; exact parseSpaceCore_isSome_iff _⟩

/-- C2: for every input text whose stripped, uppercased form begins with a
well-formed numeric run of value m followed by an optional unit letter,
the price decode returns m times 1,000,000 when the letter is M, m times
1,000 when it is K, and m times 1 when there is no letter or the letter
is neither; matching is case-insensitive because the text is uppercased
first. -/
theorem parse_price_unit_semantics (s : String) (num rest : List Char) (m : ℚ)
    (hform : pyUpper (pyStrip s.data) = num ++ rest)
    (hnum : ∀ c ∈ num, isNumChar c = true) (hne : num ≠ [])
    (hm : pyFloat num = some m)
    (hrest : rest = [] ∨ ∃ c t, rest = c :: t ∧ c.isAlpha = true) :
    parse_price (some s) = some (m *
      (if rest.head? = some 'M' then 1000000
        else if rest.head? = some 'K' then 1000 else 1)) := by
  rw [parse_price_some, hform]
  rcases hrest with rfl | ⟨c, t, rfl, hca⟩
  · rw [parsePriceCore_run num [] hnum hne (by intro c hc; simp at hc), hm]
    show some (m * priceMult []) = _
    rw [priceMult_nil]
    simp
  · rw [parsePriceCore_run num (c :: t) hnum hne
      (head_singleton_pred isNumChar c t (isAlpha_not_numChar c hca)), hm]
    show some (m * priceMult (c :: t)) = _
    rw [priceMult_alpha c t hca]
    simp only [List.head?_cons]
    by_cases hMc : c = 'M'
    · simp [hMc]
    · by_cases hKc : c = 'K'
      · simp [hMc, hKc]
      · simp [hMc, hKc]

/-- Witness for C2 at the four specified inputs, including the
case-insensitive reading of `"2.5M"`. -/
theorem parse_price_unit_semantics_witness :
    parse_price (some "2.5M") = some 2500000 ∧
      parse_price (some "500K") = some 500000 ∧
      parse_price (some "750") = some 750 ∧
      parse_price (some "1.75M") = some 1750000 := by
  refine ⟨?_, ?_, ?_, ?_⟩
  · have h := parse_price_unit_semantics "2.5M" (natDigits 2 ++ '.' :: [charOfDigit 5]) ['M']
      ((2 : ℚ) + (5 : ℚ) / 10) (by decide)
      (by
        intro c hc
        rcases List.mem_append.1 hc with h | h
        · exact natDigits_all_numChar 2 c h
        · simp at h
          rcases h with rfl | rfl
          · decide
          · decide)
      (by simp [natDigits_ne_nil 2]) (by rw [pyFloat_fixed 2 5 (by norm_num)]; norm_num)
      (Or.inr ⟨'M', [], rfl, by decide⟩)
    rw [h]
    norm_num
  · have h := parse_price_unit_semantics "500K" (natDigits 500) ['K'] ((500 : ℕ) : ℚ)
      (by decide) (natDigits_all_numChar 500) (natDigits_ne_nil 500)
      (pyFloat_natDigits 500) (Or.inr ⟨'K', [], rfl, by decide⟩)
    rw [h, if_neg (by decide), if_pos (by decide)]
    norm_num
  · have h := parse_price_unit_semantics "750" (natDigits 750) [] ((750 : ℕ) : ℚ)
      (by decide) (natDigits_all_numChar 750) (natDigits_ne_nil 750)
      (pyFloat_natDigits 750) (Or.inl rfl)
    rw [h, if_neg (by decide), if_neg (by decide)]
    norm_num
  · exact parse_price_ex4

/-- C3: for every number x, encode selects the largest unit keeping the
displayed mantissa at least 1 (M when x ≥ 1,000,000, else K when
x ≥ 1,000, else no unit), renders the mantissa with exactly one decimal
digit in the M and K branches (digits of w, a dot, a single digit d, with
w.d the rounded tenths of x at the unit scale), and renders x as a
truncated integer with no decimal point when no unit applies; in
particular encode(2,500,000) = "2.5M", encode(500,000) = "500.0K" and
encode(0) = "0". -/
theorem format_price_branch_spec (x : ℚ) :
    (1000000 ≤ x → ∃ w d, d < 10 ∧ 10 * w + d = (rhe (x / 100000)).toNat ∧
      1 ≤ (w : ℚ) + (d : ℚ) / 10 ∧
      format_price_for_csv x = String.mk (natDigits w ++ ['.', charOfDigit d, 'M'])) ∧
    (¬ 1000000 ≤ x → 1000 ≤ x → ∃ w d, d < 10 ∧ 10 * w + d = (rhe (x / 100)).toNat ∧
      1 ≤ (w : ℚ) + (d : ℚ) / 10 ∧
      format_price_for_csv x = String.mk (natDigits w ++ ['.', charOfDigit d, 'K'])) ∧
    (¬ 1000000 ≤ x → ¬ 1000 ≤ x →
      format_price_for_csv x = String.mk (intRepr (pyInt x)) ∧
      ∀ c ∈ intRepr (pyInt x), c ≠ '.') ∧
    format_price_for_csv 2500000 = "2.5M" ∧
    format_price_for_csv 500000 = "500.0K" ∧
    format_price_for_csv 0 = "0" := by
  refine ⟨?_, ?_, ?_, format_ex1, format_ex2, format_ex3⟩
  · intro hx
    set n := (rhe (x / 100000)).toNat with hn
    have h10 : (10 : ℤ) ≤ rhe (x / 100000) := by
      apply le_rhe_of_le
      rw [show ((10 : ℤ) : ℚ) = 10 from by norm_num, le_div_iff₀ (by norm_num)]
      linarith
    have hn10 : 10 ≤ n := by omega
    refine ⟨n / 10, n % 10, Nat.mod_lt _ (by omega), by omega, ?_, ?_⟩
    · have hw : (1 : ℚ) ≤ ((n / 10 : ℕ) : ℚ) := by
        have h1 : 1 ≤ n / 10 := by omega
        exact_mod_cast h1
      have hd : (0 : ℚ) ≤ ((n % 10 : ℕ) : ℚ) / 10 := by positivity
      linarith
    · unfold format_price_for_csv fmtPriceCore
      rw [if_pos hx]
      unfold fixed1
      rw [if_neg (not_lt.2 (div_nonneg (by linarith) (by norm_num)))]
      unfold fixed1Pos
      rw [show (10 : ℚ) * (x / 1000000) = x / 100000 from by ring, ← hn]
      congr 1
      simp
  · intro h1 h2
    set n := (rhe (x / 100)).toNat with hn
    have h10 : (10 : ℤ) ≤ rhe (x / 100) := by
      apply le_rhe_of_le
      rw [show ((10 : ℤ) : ℚ) = 10 from by norm_num, le_div_iff₀ (by norm_num)]
      linarith
    have hn10 : 10 ≤ n := by omega
    refine ⟨n / 10, n % 10, Nat.mod_lt _ (by omega), by omega, ?_, ?_⟩
    · have hw : (1 : ℚ) ≤ ((n / 10 : ℕ) : ℚ) := by
        have hone : 1 ≤ n / 10 := by omega
        exact_mod_cast hone
      have hd : (0 : ℚ) ≤ ((n % 10 : ℕ) : ℚ) / 10 := by positivity
      linarith
    · unfold format_price_for_csv fmtPriceCore
      rw [if_neg h1, if_pos h2]
      unfold fixed1
      rw [if_neg (not_lt.2 (div_nonneg (by linarith) (by norm_num)))]
      unfold fixed1Pos
      rw [show (10 : ℚ) * (x / 1000) = x / 100 from by ring, ← hn]
      congr 1
      simp
  · intro h1 h2
    constructor
    · unfold format_price_for_csv fmtPriceCore
      rw [if_neg h1, if_neg h2]
    · intro c hc
      unfold intRepr at hc
      by_cases hneg : pyInt x < 0
      · rw [if_pos hneg] at hc
        rcases List.mem_cons.1 hc with rfl | hmem
        · decide
        · have hnd := natDigits_ne_dot _ c hmem
          intro heq
          subst heq
          simp at hnd
      · rw [if_neg hneg] at hc
        have hnd := natDigits_ne_dot _ c hc
        intro heq
        subst heq
        simp at hnd

/-- Witness for C3: the M branch instantiated at 2,500,000. -/
theorem format_price_branch_spec_witness :
    (1000000 : ℚ) ≤ 2500000 ∧
      (∃ w d, d < 10 ∧ 10 * w + d = (rhe ((2500000 : ℚ) / 100000)).toNat ∧
        1 ≤ (w : ℚ) + (d : ℚ) / 10 ∧
        format_price_for_csv 2500000 = String.mk (natDigits w ++ ['.', charOfDigit d, 'M'])) :=
  ⟨by norm_num, (format_price_branch_spec 2500000).1 (by norm_num)⟩

/-- C8: for every input text whose stripped, lowercased form begins with a
well-formed numeric run of value m, the space decode returns exactly m,
ignoring all trailing unit text after the run. -/
theorem parse_space_leading_number (s : String) (num rest : List Char) (m : ℚ)
    (hform : pyLower (pyStrip s.data) = num ++ rest)
    (hnum : ∀ c ∈ num, isNumChar c = true) (hne : num ≠ [])
    (hm : pyFloat num = some m)
    (hrest : ∀ c, rest.head? = some c → isNumChar c = false) :
    parse_space (some s) = some m := by
  rw [parse_space_some, hform, parseSpaceCore_run num rest hnum hne hrest, hm]

/-- Witness for C8 at the two specified inputs: decode("1200ft") = 1200
and decode("850.5 sqft") = 850.5. -/
theorem parse_space_leading_number_witness :
    parse_space (some "1200ft") = some 1200 ∧
      parse_space (some "850.5 sqft") = some (1701 / 2) := by
  constructor
  · have h := parse_space_leading_number "1200ft" (natDigits 1200) ['f', 't']
      ((1200 : ℕ) : ℚ) (by decide) (natDigits_all_numChar 1200) (natDigits_ne_nil 1200)
      (pyFloat_natDigits 1200) (head_singleton_pred isNumChar 'f' ['t'] (by decide))
    rw [h]
    norm_num
  · have h := parse_space_leading_number "850.5 sqft" (natDigits 850 ++ '.' :: [charOfDigit 5])
      (' ' :: ['s', 'q', 'f', 't']) ((850 : ℚ) + (5 : ℚ) / 10) (by decide)
      (by
        intro c hc
        rcases List.mem_append.1 hc with hh | hh
        · exact natDigits_all_numChar 850 c hh
        · simp at hh
          rcases hh with rfl | rfl
          · decide
          · decide)
      (by simp [natDigits_ne_nil 850])
      (by rw [pyFloat_fixed 850 5 (by norm_num)]; norm_num)
      (head_singleton_pred isNumChar ' ' _ (by decide))
    rw [h]
    norm_num

/-- C10: the price decode applies the K/M multiplier even when the unit
letter is separated from the mantissa by whitespace and even when
arbitrary text follows the unit letter: for every well-formed mantissa of
value m, an input whose stripped, uppercased form is the mantissa, then a
(possibly empty) whitespace run, then M or K, then an arbitrary tail,
decodes to m times the multiplier of that unit. -/
theorem parse_price_gap_and_tail (s : String) (num ws tail : List Char) (u : Char) (m : ℚ)
    (hform : pyUpper (pyStrip s.data) = num ++ (ws ++ u :: tail))
    (hnum : ∀ c ∈ num, isNumChar c = true) (hne : num ≠ [])
    (hm : pyFloat num = some m)
    (hws : ∀ c ∈ ws, c.isWhitespace = true)
    (hu : u = 'M' ∨ u = 'K') :
    parse_price (some s) = some (m * (if u = 'M' then 1000000 else 1000)) := by
  rw [parse_price_some, hform]
  have hrest : ∀ c, (ws ++ u :: tail).head? = some c → isNumChar c = false := by
    intro c hc
    cases ws with
    | nil =>
      simp at hc
      rw [← hc]
      rcases hu with rfl | rfl <;> decide
    | cons a t =>
      simp at hc
      rw [← hc]
      exact ws_not_numChar a (hws a (by simp))
  rw [parsePriceCore_run num _ hnum hne hrest, hm]
  show some (m * priceMult (ws ++ u :: tail)) = _
  rw [priceMult_ws_unit ws u tail hws hu]

/-- Witness for C10: decode("2.5 M") = 2,500,000 (whitespace before the
unit) and decode("2.5Mxyz") = 2,500,000 (text after the unit). -/
theorem parse_price_gap_and_tail_witness :
    parse_price (some "2.5 M") = some 2500000 ∧
      parse_price (some "2.5Mxyz") = some 2500000 := by
  have hnum : ∀ c ∈ natDigits 2 ++ '.' :: [charOfDigit 5], isNumChar c = true := by
    intro c hc
    rcases List.mem_append.1 hc with hh | hh
    · exact natDigits_all_numChar 2 c hh
    · simp at hh
      rcases hh with rfl | rfl
      · decide
      · decide
  have hflo : pyFloat (natDigits 2 ++ '.' :: [charOfDigit 5]) = some ((2 : ℚ) + (5 : ℚ) / 10) := by
    rw [pyFloat_fixed 2 5 (by norm_num)]
    norm_num
  constructor
  · have h := parse_price_gap_and_tail "2.5 M" (natDigits 2 ++ '.' :: [charOfDigit 5])
      [' '] [] 'M' ((2 : ℚ) + (5 : ℚ) / 10) (by decide) hnum
      (by simp [natDigits_ne_nil 2]) hflo
      (by intro c hc; simp at hc; rw [hc]; decide) (Or.inl rfl)
    rw [h, if_pos rfl]
    norm_num
  · have h := parse_price_gap_and_tail "2.5Mxyz" (natDigits 2 ++ '.' :: [charOfDigit 5])
      [] ['X', 'Y', 'Z'] 'M' ((2 : ℚ) + (5 : ℚ) / 10) (by decide) hnum
      (by simp [natDigits_ne_nil 2]) hflo
      (by intro c hc; simp at hc) (Or.inl rfl)
    rw [h, if_pos rfl]
    norm_num

/-- C7: the absence-of-value marker and every input whose stripped text
has no leading run of digit/decimal-point characters decode to exactly 0
in both codecs, rather than signalling an error (case-mapping the text
cannot create or destroy a leading digit/dot run). -/
theorem parse_zero_fallback (s : String)
    (h : (pyStrip s.data).takeWhile isNumChar = []) :
    parse_price none = some 0 ∧ parse_space none = some 0 ∧
      parse_price (some s) = some 0 ∧ parse_space (some s) = some 0 := by
  refine ⟨rfl, rfl, ?_, ?_⟩
  · rw [parse_price_some]
    apply parsePriceCore_nil_run
    rw [takeWhile_nil_iff] at h ⊢
    intro c hc
    unfold pyUpper at hc
    rw [List.head?_map] at hc
    cases hh : (pyStrip s.data).head? with
    | none => rw [hh] at hc; simp at hc
    | some a =>
      rw [hh] at hc
      simp at hc
      rw [← hc, isNumChar_toUpper]
      exact h a hh
  · rw [parse_space_some]
    apply parseSpaceCore_nil_run
    rw [takeWhile_nil_iff] at h ⊢
    intro c hc
    unfold pyLower at hc
    rw [List.head?_map] at hc
    cases hh : (pyStrip s.data).head? with
    | none => rw [hh] at hc; simp at hc
    | some a =>
      rw [hh] at hc
      simp at hc
      rw [← hc, isNumChar_toLower]
      exact h a hh

/-- Witness for C7 at the specified inputs: the empty string and "abc"
decode to 0 in both codecs, as does the absence marker. -/
theorem parse_zero_fallback_witness :
    (pyStrip ("abc".data)).takeWhile isNumChar = [] ∧
      parse_price (some "abc") = some 0 ∧ parse_space (some "abc") = some 0 ∧
      parse_price (some "") = some 0 ∧ parse_price none = some 0 :=
  ⟨by decide, (parse_zero_fallback "abc" (by decide)).2.2.1,
    (parse_zero_fallback "abc" (by decide)).2.2.2,
    (parse_zero_fallback "" (by decide)).2.2.1,
    (parse_zero_fallback "abc" (by decide)).1⟩

/-- C4 counterexample: the claimed description of decode(encode(x)) as "x
rounded to one decimal digit of mantissa at the unit scale chosen by
encode" fails in the no-unit branch, which truncates instead of rounding:
at x = 3/2 the code gives decode(encode(3/2)) = 1, while rounding 3/2 to
one decimal digit at unit scale 1 gives 3/2 itself. -/
theorem price_roundtrip_counterexample :
    parse_price (some (format_price_for_csv (3 / 2))) = some 1 ∧
      ((rhe (10 * (3 / 2 : ℚ)) : ℚ) / 10 = 3 / 2) ∧ (1 : ℚ) ≠ 3 / 2 := by
  refine ⟨?_, ?_, by norm_num⟩
  · rw [parse_fmt_small (3 / 2) (by norm_num) (by norm_num), if_pos (by norm_num)]
    rw [show Rat.floor ((3 : ℚ) / 2) = 1 from by rw [ratFloor_eq]; norm_num]
    norm_num
  · rw [show (10 : ℚ) * (3 / 2) = ((15 : ℤ) : ℚ) from by norm_num, rhe_intCast]
    norm_num

/-- Witness for C4 at x = 2,560,000: the round trip gives 2,600,000 (one
decimal digit of mantissa at the M scale) and is idempotent on the second
application. -/
theorem price_roundtrip_idempotent_witness :
    (∃ y, parse_price (some (format_price_for_csv (2560000 : ℚ))) = some y ∧
      parse_price (some (format_price_for_csv y)) = some y ∧
      ((1000000 : ℚ) ≤ 2560000 → y = ((rhe ((2560000 : ℚ) / 100000)).toNat : ℚ) * 100000) ∧
      (¬ (1000000 : ℚ) ≤ 2560000 → (1000 : ℚ) ≤ 2560000 →
        y = ((rhe ((2560000 : ℚ) / 100)).toNat : ℚ) * 100) ∧
      (¬ (1000000 : ℚ) ≤ 2560000 → ¬ (1000 : ℚ) ≤ 2560000 → (0 : ℚ) ≤ 2560000 →
        y = ((Rat.floor (2560000 : ℚ)).toNat : ℚ)) ∧
      (¬ (1000000 : ℚ) ≤ 2560000 → ¬ (1000 : ℚ) ≤ 2560000 → (2560000 : ℚ) < 0 → y = 0)) ∧
    parse_price (some (format_price_for_csv (2560000 : ℚ))) = some 2600000 := by
  constructor
  · exact price_roundtrip_idempotent 2560000
  · rw [parse_fmt_M 2560000 (by norm_num)]
    have h26 : rhe ((2560000 : ℚ) / 100000) = 26 := by
      rw [show (2560000 : ℚ) / 100000 = 128 / 5 from by norm_num]
      unfold rhe
      rw [ratFloor_eq, show ⌊(128 / 5 : ℚ)⌋ = 25 from by norm_num]
      rw [if_neg (by norm_num), if_pos (by norm_num)]
      norm_num
    rw [h26, show (26 : ℤ).toNat = 26 from rfl]
    norm_num

set_option maxHeartbeats 1000000 in
/-- C5: a listing appears in the filtered table iff it belongs to the
table, its price number lies in [priceFrom, priceTo] (inclusive at both
ends), its space number lies in [spaceFrom, spaceTo], and each of the
five text-field filters is either the sentinel "All" (no constraint) or
exactly equal to the corresponding field; all constraints compose
conjunctively. -/
theorem filter_df_membership (f : Filters) (rows : List Listing) (L : Listing) :
    L ∈ filter_df f rows ↔ L ∈ rows ∧
      (f.priceFrom ≤ L.priceNumeric ∧ L.priceNumeric ≤ f.priceTo) ∧
      (f.spaceFrom ≤ L.spaceNumeric ∧ L.spaceNumeric ≤ f.spaceTo) ∧
      (f.dev = "All" ∨ L.dev = f.dev) ∧
      (f.proj = "All" ∨ L.proj = f.proj) ∧
      (f.city = "All" ∨ L.city = f.city) ∧
      (f.dis = "All" ∨ L.dis = f.dis) ∧
      (f.ty = "All" ∨ L.ty = f.ty) := by
  unfold filter_df
  simp only []
  rw [List.mem_filter, mem_if_filter, mem_if_filter, mem_if_filter, mem_if_filter,
    mem_if_filter]
  simp only [Bool.and_eq_true, decide_eq_true_eq, beq_iff_eq, not_not, ne_eq]
  tauto

/-- C6: the add handler appends exactly one new record iff all five text
fields are nonempty and both numeric fields are strictly positive; when
any requirement fails the submission is rejected with the error message
and the table is returned completely unchanged. -/
theorem addProject_validation (f : AddForm) (df : List Listing) :
    ((addProject f df).1 = df ++ [newListing f] ∧ (addProject f df).2 = none ↔
      (f.dev ≠ "" ∧ f.proj ≠ "" ∧ f.city ≠ "" ∧ f.dis ≠ "" ∧ f.ty ≠ "" ∧
        0 < f.price ∧ 0 < f.space)) ∧
    (¬ (f.dev ≠ "" ∧ f.proj ≠ "" ∧ f.city ≠ "" ∧ f.dis ≠ "" ∧ f.ty ≠ "" ∧
        0 < f.price ∧ 0 < f.space) →
      addProject f df = (df, some "❌ Please fill all required fields!")) := by
  constructor
  · constructor
    · rintro ⟨h1, h2⟩
      by_contra hvn
      have hv : ¬ addFormValid f := hvn
      simp only [addProject, if_neg hv] at h2
      exact Option.noConfusion h2
    · intro hvv
      have hv : addFormValid f := hvv
      simp only [addProject, if_pos hv]
      simp
  · intro hvn
    have hv : ¬ addFormValid f := hvn
    simp only [addProject, if_neg hv]

/-- Witness for C6: an empty developer field is rejected with the message
and leaves the empty table unchanged, while a fully valid form appends
exactly the new record. -/
theorem addProject_validation_witness :
    addProject ⟨"", "P", "C", "D", "T", 1, 1⟩ [] =
      ([], some "❌ Please fill all required fields!") ∧
    (addProject ⟨"A", "P", "C", "D", "T", 2500000, 1200⟩ []).1 =
      [] ++ [newListing ⟨"A", "P", "C", "D", "T", 2500000, 1200⟩] := by
  constructor
  · exact (addProject_validation _ _).2 (by intro h; exact h.1 rfl)
  · exact ((addProject_validation _ _).1.2
      ⟨by decide, by decide, by decide, by decide, by decide, by norm_num, by norm_num⟩).1

/-- C9: whenever a persisted table loads successfully, writing the loaded
table back persists exactly the seven canonical text columns of every row
(the persisted row type has no numeric columns at all), and the two
derived numeric columns of every loaded row are exactly the decodes of
its price and space text. -/
theorem save_load_canonical_columns (rows : List SavedRow) (df : List Listing)
    (h : load_data rows = some df) :
    save_data df = rows ∧
      ∀ L ∈ df, parse_price (some L.price) = some L.priceNumeric ∧
        parse_space (some L.space) = some L.spaceNumeric :=
  load_data_inverts rows df h

/-- Witness for C9 on a one-row table: loading recomputes 2,500,000 and
1,200 from the text cells, and saving restores exactly the original seven
text columns. -/
theorem save_load_canonical_columns_witness :
    load_data [⟨"DAMAC", "Safa One", "Dubai", "Al Safa", "Apartment", "2.5M", "1200ft"⟩] =
      some [⟨"DAMAC", "Safa One", "Dubai", "Al Safa", "Apartment", "2.5M", "1200ft",
        2500000, 1200⟩] ∧
    save_data [⟨"DAMAC", "Safa One", "Dubai", "Al Safa", "Apartment", "2.5M", "1200ft",
        2500000, 1200⟩] =
      [⟨"DAMAC", "Safa One", "Dubai", "Al Safa", "Apartment", "2.5M", "1200ft"⟩] := by
  have hl : load_data
      [(⟨"DAMAC", "Safa One", "Dubai", "Al Safa", "Apartment", "2.5M", "1200ft"⟩ : SavedRow)] =
      some [⟨"DAMAC", "Safa One", "Dubai", "Al Safa", "Apartment", "2.5M", "1200ft",
        2500000, 1200⟩] := by
    simp only [load_data, parse_price_ex1, parse_space_ex1]
  exact ⟨hl, (save_load_canonical_columns _ _ hl).1⟩

end RealEstate
